import Mathlib

/-!
Verification of the UVM assembler (`uvm-asm.py`) and interpreter
(`uvm-interp.py`).  The Python sources are shallowly embedded below:
byte strings become `List Nat`, the `defaultdict(int)` data memory becomes
an association list (newest binding first), the 64-element register list
becomes a `List Nat`, and the fetch-decode-execute loop becomes a
fuel-indexed recursion (`runFuel`) whose fuel is the byte length of the
program, which always suffices because every instruction consumes at
least three bytes.
-/

set_option maxRecDepth 10000

/-- Little-endian serialization of `n` into `k` bytes, mirroring Python's
`int.to_bytes(k, "little")` (valid when `n < 256 ^ k`). -/
def toBytesLE : Nat → Nat → List Nat
  | _, 0 => []
  | n, k + 1 => (n % 256) :: toBytesLE (n / 256) k

/-- Little-endian deserialization, mirroring `int.from_bytes(bs, "little")`. -/
def fromBytesLE : List Nat → Nat
  | [] => 0
  | b :: rest => b + 256 * fromBytesLE rest

/-- `asm_ldc` from `uvm-asm.py`: `cmd = (addr << 25) | (const << 7) | 101`,
serialized as 4 little-endian bytes. -/
def asm_ldc (const addr : Nat) : List Nat :=
  toBytesLE (((addr <<< 25) ||| (const <<< 7)) ||| 101) 4

/-- `asm_read` from `uvm-asm.py`:
`cmd = (addr2 << 20) | (addr1 << 14) | (offset << 7) | 73`, 4 bytes. -/
def asm_read (offset addr1 addr2 : Nat) : List Nat :=
  toBytesLE ((((addr2 <<< 20) ||| (addr1 <<< 14)) ||| (offset <<< 7)) ||| 73) 4

/-- `asm_write` from `uvm-asm.py`:
`cmd = (addr2 << 13) | (addr1 << 7) | 5`, 3 bytes. -/
def asm_write (addr1 addr2 : Nat) : List Nat :=
  toBytesLE (((addr2 <<< 13) ||| (addr1 <<< 7)) ||| 5) 3

/-- `asm_rsh` from `uvm-asm.py`:
`cmd = (addr3 << 33) | (addr2 << 27) | (offset2 << 20) | (offset1 << 13) | (addr1 << 7) | 75`,
5 bytes. -/
def asm_rsh (addr1 offset1 offset2 addr2 addr3 : Nat) : List Nat :=
  toBytesLE
    ((((((addr3 <<< 33) ||| (addr2 <<< 27)) ||| (offset2 <<< 20)) |||
        (offset1 <<< 13)) ||| (addr1 <<< 7)) ||| 75) 5

/-- A source-level assembly record, as consumed by `asm` in `uvm-asm.py`:
a dict with a string operation tag and the numeric fields the matched
branch reads. -/
structure SrcInstr where
  op : String
  const : Nat := 0
  addr : Nat := 0
  offset : Nat := 0
  addr1 : Nat := 0
  addr2 : Nat := 0
  addr3 : Nat := 0
  offset1 : Nat := 0
  offset2 : Nat := 0
deriving DecidableEq, Repr

/-- The per-record branch of `asm`'s if/elif chain: the encoding chosen for
a recognized tag, `none` for an unrecognized one. -/
def encodeSrc (i : SrcInstr) : Option (List Nat) :=
  if i.op = "ldc" then some (asm_ldc i.const i.addr)
  else if i.op = "read" then some (asm_read i.offset i.addr1 i.addr2)
  else if i.op = "write" then some (asm_write i.addr1 i.addr2)
  else if i.op = "rsh" then
    some (asm_rsh i.addr1 i.offset1 i.offset2 i.addr2 i.addr3)
  else none

/-- `asm` from `uvm-asm.py`: concatenates the per-instruction encodings in
order; an unrecognized tag raises `ValueError(f"Unknown instruction: {op}")`,
modelled as `Except.error`, so no partial binary is returned. -/
def asm : List SrcInstr → Except String (List Nat)
  | [] => .ok []
  | i :: rest =>
    match encodeSrc i with
    | some code =>
      match asm rest with
      | .ok bs => .ok (code ++ bs)
      | .error e => .error e
    | none => .error ("Unknown instruction: " ++ i.op)

/-- Reference concatenation of the individual encodings of a recognized
program, used to state the program-concatenation property. -/
def concatSrc (p : List SrcInstr) : List Nat :=
  p.foldr (fun i acc => (encodeSrc i).getD [] ++ acc) []

/-- The interpreter's intermediate representation: the dicts produced by
`decode_ldc` / `decode_read` / `decode_write` in `uvm-interp.py`, with the
exact field names used there. -/
inductive Decoded where
  | ldc (const addr : Nat)
  | read (offset addr_src addr_dst : Nat)
  | write (addr_dst addr_src : Nat)
deriving DecidableEq, Repr

/-- `decode_ldc` from `uvm-interp.py`: `const = (word >> 7) & 0x3FFFF`,
`addr = (word >> 25) & 0x3F`. -/
def decode_ldc (bs : List Nat) : Decoded :=
  let w := fromBytesLE bs
  .ldc ((w >>> 7) &&& 0x3FFFF) ((w >>> 25) &&& 0x3F)

/-- `decode_read` from `uvm-interp.py`: `offset = (word >> 7) & 0x7F`,
`addr_src = (word >> 14) & 0x3F`, `addr_dst = (word >> 20) & 0x3F`. -/
def decode_read (bs : List Nat) : Decoded :=
  let w := fromBytesLE bs
  .read ((w >>> 7) &&& 0x7F) ((w >>> 14) &&& 0x3F) ((w >>> 20) &&& 0x3F)

/-- `decode_write` from `uvm-interp.py`: `addr_dst = (word >> 7) & 0x3F`,
`addr_src = (word >> 13) & 0x3F` (note: the bit-7 field is labelled the
destination-address register and the bit-13 field the source register). -/
def decode_write (bs : List Nat) : Decoded :=
  let w := fromBytesLE bs
  .write ((w >>> 7) &&& 0x3F) ((w >>> 13) &&& 0x3F)

/-- The `opcodes` dispatch table of `uvm-interp.py`: opcode ↦ (size in
bytes, decoder).  Opcode 75 (`rsh`) is absent — the source comment defers
it to a later stage. -/
def opcodes (op : Nat) : Option (Nat × (List Nat → Decoded)) :=
  if op = 101 then some (4, decode_ldc)
  else if op = 73 then some (4, decode_read)
  else if op = 5 then some (3, decode_write)
  else none

/-- Data memory: `defaultdict(int)` modelled as an association list, the
most recent binding first.  Absent keys read as 0, and — exactly as with
`defaultdict` — a read of an absent key inserts it. -/
abbrev Mem := List (Nat × Nat)

/-- The stored value at address `a`, if `a` is a key of the dict. -/
def memLookup (m : Mem) (a : Nat) : Option Nat :=
  (m.find? (fun p => p.1 == a)).map (fun p => p.2)

/-- `data_memory[a]` as a pure read: stored value, or the default 0. -/
def memGet (m : Mem) (a : Nat) : Nat :=
  (memLookup m a).getD 0

/-- `a in data_memory`. -/
def memContains (m : Mem) (a : Nat) : Bool :=
  (memLookup m a).isSome

/-- `data_memory[a] = v`. -/
def memWrite (m : Mem) (a v : Nat) : Mem :=
  (a, v) :: m

/-- The key-inserting side effect of evaluating `data_memory[a]` on a
`defaultdict(int)`: an absent key is inserted with value 0. -/
def memTouch (m : Mem) (a : Nat) : Mem :=
  if memContains m a then m else (a, 0) :: m

/-- The mutable VM state of `uvm-interp.py`: the 64-register file and the
data memory (the instruction store and pc are threaded separately through
the loop). -/
structure VMState where
  registers : List Nat
  mem : Mem
deriving DecidableEq, Repr

/-- Fresh state: `registers = [0] * 64`, empty data memory. -/
def initState : VMState :=
  ⟨List.replicate 64 0, []⟩

/-- `exec_ldc`: `registers[addr] = const`. -/
def exec_ldc (const addr : Nat) (s : VMState) : VMState :=
  { s with registers := s.registers.set addr const }

/-- `exec_read`: `value = data_memory[registers[addr_src] + offset]`
(a `defaultdict` read, which inserts the key), then
`registers[addr_dst] = value`. -/
def exec_read (offset asrc adst : Nat) (s : VMState) : VMState :=
  let base := s.registers.getD asrc 0
  let memAddr := base + offset
  let value := memGet s.mem memAddr
  ⟨s.registers.set adst value, memTouch s.mem memAddr⟩

/-- `exec_write`: `data_memory[registers[addr_dst]] = registers[addr_src]`
(with `addr_dst` the bit-7 field and `addr_src` the bit-13 field, per
`decode_write`). -/
def exec_write (adst asrc : Nat) (s : VMState) : VMState :=
  let value := s.registers.getD asrc 0
  let destAddr := s.registers.getD adst 0
  ⟨s.registers, memWrite s.mem destAddr value⟩

/-- The `executors` dispatch of `uvm-interp.py`. -/
def execD : Decoded → VMState → VMState
  | .ldc c a, s => exec_ldc c a s
  | .read o asrc adst, s => exec_read o asrc adst s
  | .write adst asrc, s => exec_write adst asrc s

/-- How a run of the interpreter loop ends: normal completion at the final
pc, or one of the two fatal decode errors at the failing pc. -/
inductive HaltStatus where
  | normal (pc : Nat)
  | errUnknown (pc opcode : Nat)
  | errTrunc (pc : Nat)
deriving DecidableEq, Repr

/-- The fetch-decode-execute loop of `run_interpreter`, recursing on a fuel
argument.  `bytes` is the not-yet-consumed suffix of the instruction store
(the loop has no jumps, so the pc only moves forward) and `pc` the absolute
position of its first byte.  One fuel unit is spent per executed
instruction; each instruction consumes at least 3 bytes, so fuel equal to
the byte length never runs out (the fuel-exhausted branch is unreachable
from `run`). -/
def runFuel : Nat → List Nat → Nat → VMState → VMState × HaltStatus
  | _, [], pc, s => (s, .normal pc)
  | 0, _ :: _, pc, s => (s, .errTrunc pc)
  | fuel + 1, b :: rest, pc, s =>
    match opcodes (b &&& 0x7F) with
    | none => (s, .errUnknown pc (b &&& 0x7F))
    | some sd =>
      if sd.1 ≤ rest.length + 1 then
        runFuel fuel ((b :: rest).drop sd.1) (pc + sd.1)
          (execD (sd.2 ((b :: rest).take sd.1)) s)
      else (s, .errTrunc pc)

/-- The interpreter loop started on a byte buffer at a given pc. -/
def run (bytes : List Nat) (pc : Nat) (s : VMState) : VMState × HaltStatus :=
  runFuel bytes.length bytes pc s

/-- The post-run memory dump of `run_interpreter`:
`{addr: data_memory[addr] for addr in range(start, end + 1) if addr in data_memory}`. -/
def memoryDump (m : Mem) (start stop : Nat) : List (Nat × Nat) :=
  (List.range' start (stop + 1 - start)).filterMap
    (fun a => if memContains m a then some (a, memGet m a) else none)

/-- `run_interpreter` end to end, as observed by its caller: it runs the
loop from pc 0 on a fresh state and produces the memory dump for the given
inclusive range.  The Python function returns `None` in every case — on a
decode error it prints a message, breaks the loop, and still writes the
dump — so the dump is the whole caller-visible outcome. -/
def runInterpreter (bytes : List Nat) (start stop : Nat) : List (Nat × Nat) :=
  memoryDump ((run bytes 0 initState).1).mem start stop

/-- Spec-level instruction variants (§3 of the spec): field order and names
follow the spec's table; the assembler's fixed test vectors pin the
correspondence to `asm_ldc` / `asm_read` / `asm_write` / `asm_rsh`
argument order. -/
inductive Instr where
  | ldc (const dst : Nat)
  | read (offset src dst : Nat)
  | write (src dst : Nat)
  | rsh (dst dstOff srcOff src opnd : Nat)
deriving DecidableEq, Repr

/-- The encoder for a spec-level instruction, via the `asm_*` functions. -/
def encodeInstr : Instr → List Nat
  | .ldc c d => asm_ldc c d
  | .read o sr dr => asm_read o sr dr
  | .write sr dr => asm_write sr dr
  | .rsh d dOff sOff sr opn => asm_rsh d dOff sOff sr opn

/-- Fields within the declared bit widths (§3), and within the opcode set
the interpreter dispatches on (`rsh` is excluded: opcode 75 is not in the
table). -/
def okInstr : Instr → Bool
  | .ldc c d => decide (c < 0x40000) && decide (d < 64)
  | .read o sr dr => decide (o < 128) && decide (sr < 64) && decide (dr < 64)
  | .write sr dr => decide (sr < 64) && decide (dr < 64)
  | .rsh _ _ _ _ _ => false

/-- Full decoding of one instruction's bytes along the interpreter's path:
dispatch on `first_byte & 0x7F` through `opcodes`, then apply the chosen
decoder to the instruction window. -/
def decodeInstrBytes (bs : List Nat) : Option Decoded :=
  match bs with
  | [] => none
  | b :: _ =>
    match opcodes (b &&& 0x7F) with
    | none => none
    | some sd => some (sd.2 (bs.take sd.1))

/-- Reading a decoded dict back as a spec-level instruction, matching the
interpreter's field names to the spec's: `addr_src` is the source register
and `addr_dst` the destination register. -/
def decodedToInstr : Decoded → Instr
  | .ldc c a => .ldc c a
  | .read o asrc adst => .read o asrc adst
  | .write adst asrc => .write asrc adst

/-- `decode`: bytes back to a spec-level instruction, when the opcode is
dispatchable. -/
def decode (bs : List Nat) : Option Instr :=
  (decodeInstrBytes bs).map decodedToInstr

/-- The decoded form the interpreter produces for a supported spec-level
instruction (`rsh` has no decoder). -/
def decodedOf : Instr → Option Decoded
  | .ldc c d => some (.ldc c d)
  | .read o sr dr => some (.read o sr dr)
  | .write sr dr => some (.write sr dr)
  | .rsh _ _ _ _ _ => none

/-- The state transition of one supported instruction (identity for the
unsupported `rsh`, which the loop never executes). -/
def stepInstr (i : Instr) (s : VMState) : VMState :=
  match decodedOf i with
  | some d => execD d s
  | none => s

/-- Concatenation of the encodings of a program, in source order. -/
def encodeProgram : List Instr → List Nat
  | [] => []
  | i :: rest => encodeInstr i ++ encodeProgram rest

/-- The states a program's instructions produce, folded in order. -/
def execProgram : List Instr → VMState → VMState
  | [], s => s
  | i :: rest, s => execProgram rest (stepInstr i s)

/-- A nonempty byte suffix whose first instruction immediately faults:
unknown opcode, or fewer bytes than the opcode's declared size. -/
def badStart : List Nat → Bool
  | [] => false
  | b :: rest =>
    match opcodes (b &&& 0x7F) with
    | none => true
    | some sd => decide (rest.length + 1 < sd.1)

theorem toBytesLE_length : ∀ k n, (toBytesLE n k).length = k := by
  intro k
  induction k with
  | zero => intro n; rfl
  | succ k ih => intro n; simp [toBytesLE, ih]

theorem fromBytes_toBytes : ∀ k n, fromBytesLE (toBytesLE n k) = n % 256 ^ k := by
  intro k
  induction k with
  | zero => intro n; simp [toBytesLE, fromBytesLE]; omega
  | succ k ih =>
    intro n
    have hpow : (256 : Nat) ^ (k + 1) = 256 * 256 ^ k := by ring
    rw [toBytesLE, fromBytesLE, ih, hpow, Nat.mod_mul]

theorem or_mul_add (a b k : Nat) (h : b < 2 ^ k) :
    (a <<< k) ||| b = 2 ^ k * a + b := by
  rw [Nat.shiftLeft_eq, Nat.mul_comm]
  exact (Nat.mul_add_lt_is_or h a).symm

theorem and_mask_7 (x : Nat) : x &&& 127 = x % 128 := by
  have h := Nat.and_pow_two_sub_one_eq_mod x 7
  norm_num at h
  exact h

theorem and_mask_6 (x : Nat) : x &&& 63 = x % 64 := by
  have h := Nat.and_pow_two_sub_one_eq_mod x 6
  norm_num at h
  exact h

theorem and_mask_18 (x : Nat) : x &&& 262143 = x % 262144 := by
  have h := Nat.and_pow_two_sub_one_eq_mod x 18
  norm_num at h
  exact h

theorem cmd_ldc_eq (c d : Nat) (hc : c < 262144) :
    ((d <<< 25) ||| (c <<< 7)) ||| 101 = 33554432 * d + 128 * c + 101 := by
  rw [Nat.or_assoc]
  rw [or_mul_add c 101 7 (by norm_num)]
  rw [or_mul_add d (2 ^ 7 * c + 101) 25 (by norm_num; omega)]
  norm_num
  ring

theorem cmd_read_eq (o a1 a2 : Nat) (ho : o < 128) (ha1 : a1 < 64) :
    (((a2 <<< 20) ||| (a1 <<< 14)) ||| (o <<< 7)) ||| 73 =
      1048576 * a2 + 16384 * a1 + 128 * o + 73 := by
  rw [Nat.or_assoc, Nat.or_assoc]
  rw [or_mul_add o 73 7 (by norm_num)]
  rw [or_mul_add a1 (2 ^ 7 * o + 73) 14 (by norm_num; omega)]
  rw [or_mul_add a2 (2 ^ 14 * a1 + (2 ^ 7 * o + 73)) 20 (by norm_num; omega)]
  norm_num
  ring

theorem cmd_write_eq (b c : Nat) (hb : b < 64) :
    ((c <<< 13) ||| (b <<< 7)) ||| 5 = 8192 * c + 128 * b + 5 := by
  rw [Nat.or_assoc]
  rw [or_mul_add b 5 7 (by norm_num)]
  rw [or_mul_add c (2 ^ 7 * b + 5) 13 (by norm_num; omega)]
  norm_num
  ring

theorem cmd_rsh_eq (b c d e f : Nat) (hb : b < 64) (hc : c < 128)
    (hd : d < 128) (he : e < 64) :
    ((((( f <<< 33) ||| (e <<< 27)) ||| (d <<< 20)) ||| (c <<< 13)) |||
        (b <<< 7)) ||| 75 =
      8589934592 * f + 134217728 * e + 1048576 * d + 8192 * c + 128 * b + 75 := by
  rw [Nat.or_assoc, Nat.or_assoc, Nat.or_assoc, Nat.or_assoc]
  rw [or_mul_add b 75 7 (by norm_num)]
  rw [or_mul_add c (2 ^ 7 * b + 75) 13 (by norm_num; omega)]
  rw [or_mul_add d (2 ^ 13 * c + (2 ^ 7 * b + 75)) 20 (by norm_num; omega)]
  rw [or_mul_add e (2 ^ 20 * d + (2 ^ 13 * c + (2 ^ 7 * b + 75))) 27
    (by norm_num; omega)]
  rw [or_mul_add f _ 33 (by norm_num; omega)]
  norm_num
  ring

theorem decode_ldc_correct (c d : Nat) (hc : c < 262144) (hd : d < 64) :
    decode_ldc (asm_ldc c d) = Decoded.ldc c d := by
  simp only [decode_ldc, asm_ldc, fromBytes_toBytes, cmd_ldc_eq c d hc,
    Nat.shiftRight_eq_div_pow, and_mask_18, and_mask_6, Decoded.ldc.injEq]
  norm_num
  omega

theorem decode_read_correct (o a1 a2 : Nat) (ho : o < 128) (ha1 : a1 < 64)
    (ha2 : a2 < 64) :
    decode_read (asm_read o a1 a2) = Decoded.read o a1 a2 := by
  simp only [decode_read, asm_read, fromBytes_toBytes, cmd_read_eq o a1 a2 ho ha1,
    Nat.shiftRight_eq_div_pow, and_mask_7, and_mask_6, Decoded.read.injEq]
  norm_num
  omega

theorem decode_write_correct (b c : Nat) (hb : b < 64) (hc : c < 64) :
    decode_write (asm_write b c) = Decoded.write b c := by
  simp only [decode_write, asm_write, fromBytes_toBytes, cmd_write_eq b c hb,
    Nat.shiftRight_eq_div_pow, and_mask_6, Decoded.write.injEq]
  norm_num
  omega

theorem opcode_of_byte (bigK r : Nat) (h : r < 128) :
    ((bigK * 128 + r) % 256) &&& 127 = r := by
  rw [and_mask_7]
  omega

theorem opcodes_pos (op : Nat) (sd : Nat × (List Nat → Decoded))
    (h : opcodes op = some sd) : 0 < sd.1 := by
  unfold opcodes at h
  split at h
  · cases h; decide
  · split at h
    · cases h; decide
    · split at h
      · cases h; decide
      · cases h

theorem runFuel_eq_of_le : ∀ (f g : Nat) (bytes : List Nat) (pc : Nat) (s : VMState),
    bytes.length ≤ f → bytes.length ≤ g →
    runFuel f bytes pc s = runFuel g bytes pc s := by
  intro f
  induction f with
  | zero =>
    intro g bytes pc s hf _
    have : bytes = [] := by
      cases bytes with
      | nil => rfl
      | cons b rest => simp at hf
    subst this
    cases g <;> rfl
  | succ f ih =>
    intro g bytes pc s hf hg
    cases bytes with
    | nil => cases g <;> rfl
    | cons b rest =>
      cases g with
      | zero => simp at hg
      | succ g =>
        simp only [runFuel]
        cases hop : opcodes (b &&& 127) with
        | none => rfl
        | some sd =>
          simp only []
          by_cases hsz : sd.1 ≤ rest.length + 1
          · simp only [if_pos hsz]
            have hpos := opcodes_pos _ _ hop
            have hlen : ((b :: rest).drop sd.1).length ≤ f := by
              simp only [List.length_drop, List.length_cons]
              simp only [List.length_cons] at hf
              omega
            have hlen' : ((b :: rest).drop sd.1).length ≤ g := by
              simp only [List.length_drop, List.length_cons]
              simp only [List.length_cons] at hg
              omega
            exact ih g _ _ _ hlen hlen'
          · simp only [if_neg hsz]

theorem byte_opcode (x r : Nat) (h : x % 128 = r) : (x % 256) &&& 127 = r := by
  rw [and_mask_7]
  omega

theorem run_step (code rest : List Nat) (pc : Nat) (s : VMState)
    (size : Nat) (dec : List Nat → Decoded)
    (hlen : code.length = size)
    (hop : opcodes ((code.headD 0) &&& 127) = some (size, dec)) :
    run (code ++ rest) pc s = run rest (pc + size) (execD (dec code) s) := by
  have hpos : 0 < size := by
    have h := opcodes_pos _ _ hop
    simpa using h
  cases code with
  | nil => simp at hlen; omega
  | cons b ctail =>
    have hct : ctail.length = size - 1 := by
      simp only [List.length_cons] at hlen
      omega
    simp only [List.headD_cons] at hop
    unfold run
    simp only [List.cons_append, List.length_cons, runFuel]
    rw [hop]
    dsimp only
    simp only [List.append_eq]
    have hguard : size ≤ (ctail ++ rest).length + 1 := by
      simp only [List.length_append]
      omega
    rw [if_pos hguard]
    have htake : (b :: (ctail ++ rest)).take size = b :: ctail := by
      rw [← List.cons_append]
      exact List.take_left' hlen
    have hdrop : (b :: (ctail ++ rest)).drop size = rest := by
      rw [← List.cons_append]
      exact List.drop_left' hlen
    rw [htake, hdrop]
    apply runFuel_eq_of_le
    · simp only [List.length_append]
      omega
    · exact le_refl _

theorem run_step_ldc (c d : Nat) (hc : c < 262144) (rest : List Nat)
    (pc : Nat) (s : VMState) :
    run (asm_ldc c d ++ rest) pc s =
      run rest (pc + 4) (execD (decode_ldc (asm_ldc c d)) s) := by
  apply run_step
  · simp [asm_ldc, toBytesLE_length]
  · have hhead : ((asm_ldc c d).headD 0) &&& 127 = 101 := by
      simp only [asm_ldc, cmd_ldc_eq c d hc, toBytesLE, List.headD_cons]
      apply byte_opcode
      omega
    rw [hhead]
    rfl

theorem run_step_read (o a1 a2 : Nat) (ho : o < 128) (ha1 : a1 < 64)
    (rest : List Nat) (pc : Nat) (s : VMState) :
    run (asm_read o a1 a2 ++ rest) pc s =
      run rest (pc + 4) (execD (decode_read (asm_read o a1 a2)) s) := by
  apply run_step
  · simp [asm_read, toBytesLE_length]
  · have hhead : ((asm_read o a1 a2).headD 0) &&& 127 = 73 := by
      simp only [asm_read, cmd_read_eq o a1 a2 ho ha1, toBytesLE, List.headD_cons]
      apply byte_opcode
      omega
    rw [hhead]
    rfl

theorem run_step_write (b c : Nat) (hb : b < 64) (rest : List Nat)
    (pc : Nat) (s : VMState) :
    run (asm_write b c ++ rest) pc s =
      run rest (pc + 3) (execD (decode_write (asm_write b c)) s) := by
  apply run_step
  · simp [asm_write, toBytesLE_length]
  · have hhead : ((asm_write b c).headD 0) &&& 127 = 5 := by
      simp only [asm_write, cmd_write_eq b c hb, toBytesLE, List.headD_cons]
      apply byte_opcode
      omega
    rw [hhead]
    rfl

theorem run_step_rsh (b c d e f : Nat) (hb : b < 64) (hc : c < 128)
    (hd : d < 128) (he : e < 64) (rest : List Nat) (pc : Nat) (s : VMState) :
    run (asm_rsh b c d e f ++ rest) pc s = (s, .errUnknown pc 75) := by
  have hhead : ((asm_rsh b c d e f).headD 0) &&& 127 = 75 := by
    simp only [asm_rsh, cmd_rsh_eq b c d e f hb hc hd he, toBytesLE,
      List.headD_cons]
    apply byte_opcode
    omega
  simp only [asm_rsh, toBytesLE] at hhead ⊢
  unfold run
  simp only [List.cons_append, List.length_cons, runFuel]
  simp only [List.headD_cons] at hhead
  rw [hhead]
  rfl

theorem run_encode_ok (i : Instr) (h : okInstr i = true) (rest : List Nat)
    (pc : Nat) (s : VMState) :
    run (encodeInstr i ++ rest) pc s =
      run rest (pc + (encodeInstr i).length) (stepInstr i s) := by
  cases i with
  | ldc c d =>
    simp only [okInstr, Bool.and_eq_true, decide_eq_true_eq] at h
    have hlen : (encodeInstr (Instr.ldc c d)).length = 4 := by
      simp [encodeInstr, asm_ldc, toBytesLE_length]
    rw [hlen]
    show run (asm_ldc c d ++ rest) pc s = _
    rw [run_step_ldc c d (by omega) rest pc s]
    rw [decode_ldc_correct c d (by omega) h.2]
    rfl
  | read o sr dr =>
    simp only [okInstr, Bool.and_eq_true, decide_eq_true_eq] at h
    have hlen : (encodeInstr (Instr.read o sr dr)).length = 4 := by
      simp [encodeInstr, asm_read, toBytesLE_length]
    rw [hlen]
    show run (asm_read o sr dr ++ rest) pc s = _
    rw [run_step_read o sr dr h.1.1 h.1.2 rest pc s]
    rw [decode_read_correct o sr dr h.1.1 h.1.2 h.2]
    rfl
  | write sr dr =>
    simp only [okInstr, Bool.and_eq_true, decide_eq_true_eq] at h
    have hlen : (encodeInstr (Instr.write sr dr)).length = 3 := by
      simp [encodeInstr, asm_write, toBytesLE_length]
    rw [hlen]
    show run (asm_write sr dr ++ rest) pc s = _
    rw [run_step_write sr dr h.1 rest pc s]
    rw [decode_write_correct sr dr h.1 h.2]
    rfl
  | rsh a b c d e => simp [okInstr] at h

theorem run_encodeProgram (instrs : List Instr)
    (h : ∀ i ∈ instrs, okInstr i = true) (rest : List Nat) (pc : Nat)
    (s : VMState) :
    run (encodeProgram instrs ++ rest) pc s =
      run rest (pc + (encodeProgram instrs).length) (execProgram instrs s) := by
  induction instrs generalizing pc s with
  | nil => simp [encodeProgram, execProgram]
  | cons i tl ih =>
    simp only [encodeProgram, execProgram, List.append_assoc]
    rw [run_encode_ok i (h i (by simp)) (encodeProgram tl ++ rest) pc s]
    rw [ih (fun j hj => h j (by simp [hj])) (pc + (encodeInstr i).length) _]
    simp only [List.length_append]
    ring_nf

theorem run_badStart (suffix : List Nat) (pc : Nat) (s : VMState)
    (h : badStart suffix = true) :
    (run suffix pc s).1 = s ∧
      ((run suffix pc s).2 = HaltStatus.errUnknown pc ((suffix.headD 0) &&& 127) ∨
        (run suffix pc s).2 = HaltStatus.errTrunc pc) := by
  cases suffix with
  | nil => simp [badStart] at h
  | cons b rest =>
    have h' : (match opcodes (b &&& 127) with
        | none => true
        | some sd => decide (rest.length + 1 < sd.1)) = true := h
    unfold run
    simp only [List.length_cons, List.headD_cons, runFuel]
    cases hop : opcodes (b &&& 127) with
    | none => exact ⟨rfl, Or.inl rfl⟩
    | some sd =>
      rw [hop] at h'
      simp only [decide_eq_true_eq] at h'
      dsimp only
      rw [if_neg (by omega)]
      exact ⟨rfl, Or.inr rfl⟩

theorem execD_reg_length (d : Decoded) (s : VMState) :
    ((execD d s).registers).length = s.registers.length := by
  cases d <;> simp [execD, exec_ldc, exec_read, exec_write]

theorem runFuel_reg_length : ∀ (f : Nat) (bytes : List Nat) (pc : Nat)
    (s : VMState),
    (((runFuel f bytes pc s).1).registers).length = s.registers.length := by
  intro f
  induction f with
  | zero => intro bytes pc s; cases bytes <;> rfl
  | succ f ih =>
    intro bytes pc s
    cases bytes with
    | nil => rfl
    | cons b rest =>
      simp only [runFuel]
      cases hop : opcodes (b &&& 127) with
      | none => rfl
      | some sd =>
        dsimp only
        by_cases hsz : sd.1 ≤ rest.length + 1
        · rw [if_pos hsz]
          rw [ih]
          exact execD_reg_length _ _
        · rw [if_neg hsz]

theorem mem_memoryDump (m : Mem) (start stop a v : Nat) :
    ((a, v) ∈ memoryDump m start stop) ↔
      (start ≤ a ∧ a ≤ stop ∧ memContains m a = true ∧ v = memGet m a) := by
  unfold memoryDump
  rw [List.mem_filterMap]
  constructor
  · rintro ⟨x, hx, hfx⟩
    rw [List.mem_range'] at hx
    obtain ⟨i, hi, hxi⟩ := hx
    by_cases hcont : memContains m x
    · rw [if_pos hcont] at hfx
      have hax : x = a ∧ memGet m x = v := by
        constructor <;> [exact congrArg Prod.fst (Option.some.inj hfx);
          exact congrArg Prod.snd (Option.some.inj hfx)]
      obtain ⟨rfl, hv⟩ := hax
      exact ⟨by omega, by omega, hcont, hv.symm⟩
    · rw [if_neg hcont] at hfx
      cases hfx
  · rintro ⟨h1, h2, h3, h4⟩
    refine ⟨a, ?_, ?_⟩
    · rw [List.mem_range']
      exact ⟨a - start, by omega, by omega⟩
    · rw [if_pos h3, h4]

theorem asm_ok (p : List SrcInstr) (h : ∀ i ∈ p, (encodeSrc i).isSome = true) :
    asm p = .ok (concatSrc p) := by
  induction p with
  | nil => rfl
  | cons i tl ih =>
    have hi := h i (by simp)
    obtain ⟨code, hcode⟩ := Option.isSome_iff_exists.mp hi
    unfold asm
    rw [hcode, ih (fun j hj => h j (by simp [hj]))]
    unfold concatSrc
    simp [hcode]

theorem asm_err (p : List SrcInstr) (h : ∃ i ∈ p, encodeSrc i = none) :
    ∃ t, asm p = .error ("Unknown instruction: " ++ t) ∧
      ∃ i ∈ p, i.op = t ∧ encodeSrc i = none := by
  induction p with
  | nil => simp at h
  | cons i tl ih =>
    by_cases hi : encodeSrc i = none
    · refine ⟨i.op, ?_, ⟨i, by simp, rfl, hi⟩⟩
      unfold asm
      rw [hi]
    · have htl : ∃ j ∈ tl, encodeSrc j = none := by
        obtain ⟨j, hj, hjn⟩ := h
        rcases List.mem_cons.mp hj with rfl | hmem
        · exact absurd hjn hi
        · exact ⟨j, hmem, hjn⟩
      obtain ⟨t, ht, j, hj, hjt, hjn⟩ := ih htl
      obtain ⟨code, hcode⟩ := Option.ne_none_iff_exists'.mp hi
      refine ⟨t, ?_, ⟨j, by simp [hj], hjt, hjn⟩⟩
      unfold asm
      rw [hcode, ht]

theorem memGet_memWrite (m : Mem) (a v x : Nat) :
    memGet (memWrite m a v) x = if x = a then v else memGet m x := by
  unfold memGet memWrite memLookup
  by_cases hx : x = a
  · subst hx
    simp [List.find?]
  · simp only [List.find?]
    have : ((a, v).1 == x) = false := by simp [Ne.symm hx]
    rw [this]
    simp [hx]

theorem memContains_memWrite (m : Mem) (a v x : Nat) :
    memContains (memWrite m a v) x = if x = a then true else memContains m x := by
  unfold memContains memWrite memLookup
  by_cases hx : x = a
  · subst hx
    simp [List.find?]
  · simp only [List.find?]
    have : ((a, v).1 == x) = false := by simp [Ne.symm hx]
    rw [this]
    simp [hx]

theorem memContains_memTouch (m : Mem) (a x : Nat) :
    memContains (memTouch m a) x = if x = a then true else memContains m x := by
  unfold memTouch
  by_cases hc : memContains m a
  · rw [if_pos hc]
    by_cases hx : x = a
    · subst hx; simp [hc]
    · simp [hx]
  · rw [if_neg hc]
    unfold memContains memLookup
    by_cases hx : x = a
    · subst hx; simp [List.find?]
    · simp only [List.find?]
      have : ((a, 0).1 == x) = false := by simp [Ne.symm hx]
      rw [this]
      simp [hx]

theorem asm_ldc_opcode (c d : Nat) (hc : c < 262144) :
    ((asm_ldc c d).headD 0) &&& 127 = 101 := by
  simp only [asm_ldc, cmd_ldc_eq c d hc, toBytesLE, List.headD_cons]
  apply byte_opcode
  omega

theorem asm_read_opcode (o a1 a2 : Nat) (ho : o < 128) (ha1 : a1 < 64) :
    ((asm_read o a1 a2).headD 0) &&& 127 = 73 := by
  simp only [asm_read, cmd_read_eq o a1 a2 ho ha1, toBytesLE, List.headD_cons]
  apply byte_opcode
  omega

theorem asm_write_opcode (b c : Nat) (hb : b < 64) :
    ((asm_write b c).headD 0) &&& 127 = 5 := by
  simp only [asm_write, cmd_write_eq b c hb, toBytesLE, List.headD_cons]
  apply byte_opcode
  omega

theorem asm_rsh_opcode (b c d e f : Nat) (hb : b < 64) (hc : c < 128)
    (hd : d < 128) (he : e < 64) :
    ((asm_rsh b c d e f).headD 0) &&& 127 = 75 := by
  simp only [asm_rsh, cmd_rsh_eq b c d e f hb hc hd he, toBytesLE,
    List.headD_cons]
  apply byte_opcode
  omega

theorem decodeInstrBytes_eq (bs : List Nat) (size : Nat)
    (dec : List Nat → Decoded)
    (hop : opcodes ((bs.headD 0) &&& 127) = some (size, dec)) (hne : bs ≠ []) :
    decodeInstrBytes bs = some (dec (bs.take size)) := by
  cases bs with
  | nil => exact absurd rfl hne
  | cons b t =>
    simp only [List.headD_cons] at hop
    show (match opcodes (b &&& 127) with
      | none => none
      | some sd => some (sd.2 (List.take sd.1 (b :: t)))) =
        some (dec (List.take size (b :: t)))
    rw [hop]

theorem decodeInstrBytes_none (bs : List Nat)
    (hop : opcodes ((bs.headD 0) &&& 127) = none) (hne : bs ≠ []) :
    decodeInstrBytes bs = none := by
  cases bs with
  | nil => exact absurd rfl hne
  | cons b t =>
    simp only [List.headD_cons] at hop
    show (match opcodes (b &&& 127) with
      | none => none
      | some sd => some (sd.2 (List.take sd.1 (b :: t)))) = none
    rw [hop]

theorem asm_ldc_ne_nil (c d : Nat) : asm_ldc c d ≠ [] := by
  simp [asm_ldc, toBytesLE]

theorem asm_read_ne_nil (o a1 a2 : Nat) : asm_read o a1 a2 ≠ [] := by
  simp [asm_read, toBytesLE]

theorem asm_write_ne_nil (b c : Nat) : asm_write b c ≠ [] := by
  simp [asm_write, toBytesLE]

theorem asm_rsh_ne_nil (b c d e f : Nat) : asm_rsh b c d e f ≠ [] := by
  simp [asm_rsh, toBytesLE]

theorem take_all_of_length (l : List Nat) (n : Nat) (h : l.length = n) :
    l.take n = l := by
  rw [← h]
  exact List.take_length l

/-- C1 (counterexample): on the spec's own test program
`[LoadConst(7, r0), LoadConst(3, r1), Write(r0, r1)]` the claimed transition
would give `data_memory[3] = 7`; the interpreter instead leaves address 3
untouched and stores 3 at address 7. -/
theorem c1_write_claim_cex :
    memContains ((run (asm_ldc 7 0 ++ (asm_ldc 3 1 ++ asm_write 0 1)) 0
      initState).1).mem 3 = false ∧
    memGet ((run (asm_ldc 7 0 ++ (asm_ldc 3 1 ++ asm_write 0 1)) 0
      initState).1).mem 7 = 3 := by
  decide

/-- C1 (amended): for a `Write` whose bit-7 field is `src_reg` and bit-13
field is `dst_reg` (the assembler's placement), the interpreter decodes the
bit-7 field as `addr_dst` and the bit-13 field as `addr_src`, and the
executed transition stores `registers[dst_reg]` into `data_memory` at
effective address `registers[src_reg]` — the two roles are swapped relative
to the claim; all registers and all other memory cells are unchanged. -/
theorem c1_write_transition (sReg dReg : Nat) (hs : sReg < 64)
    (hd : dReg < 64) (st : VMState) :
    decode_write (asm_write sReg dReg) = Decoded.write sReg dReg ∧
    (execD (Decoded.write sReg dReg) st).registers = st.registers ∧
    memGet (execD (Decoded.write sReg dReg) st).mem
        (st.registers.getD sReg 0) = st.registers.getD dReg 0 ∧
    ∀ a, a ≠ st.registers.getD sReg 0 →
      memGet (execD (Decoded.write sReg dReg) st).mem a = memGet st.mem a ∧
      memContains (execD (Decoded.write sReg dReg) st).mem a =
        memContains st.mem a := by
  refine ⟨decode_write_correct sReg dReg hs hd, rfl, ?_, ?_⟩
  · show memGet (memWrite st.mem (st.registers.getD sReg 0)
        (st.registers.getD dReg 0)) (st.registers.getD sReg 0) =
      st.registers.getD dReg 0
    rw [memGet_memWrite, if_pos rfl]
  · intro a ha
    constructor
    · show memGet (memWrite st.mem (st.registers.getD sReg 0)
          (st.registers.getD dReg 0)) a = memGet st.mem a
      rw [memGet_memWrite, if_neg ha]
    · show memContains (memWrite st.mem (st.registers.getD sReg 0)
          (st.registers.getD dReg 0)) a = memContains st.mem a
      rw [memContains_memWrite, if_neg ha]

/-- C1 (witness): the amended transition at concrete registers 2 and 5 on
the fresh state. -/
theorem c1_write_transition_witness :
    decode_write (asm_write 2 5) = Decoded.write 2 5 ∧
    (execD (Decoded.write 2 5) initState).registers = initState.registers :=
  ⟨(c1_write_transition 2 5 (by decide) (by decide) initState).1,
    (c1_write_transition 2 5 (by decide) (by decide) initState).2.1⟩

/-- C2 (counterexample): opcode 75 is not in the dispatch table, and the
encoding of `ShiftRight(6, 36, 35, 19, 11)` makes the interpreter halt with
an unknown-opcode error instead of executing a shift. -/
theorem c2_dispatch_cex :
    opcodes 75 = none ∧
    run (asm_rsh 6 36 35 19 11) 0 initState =
      (initState, HaltStatus.errUnknown 0 75) :=
  ⟨rfl, by decide⟩

/-- C2 (amended): the dispatch table associates a (size, decoder) pair with
exactly the three opcodes 101, 73 and 5; consequently every program whose
current instruction is an encoded ShiftRight (opcode 75, fields within
their declared widths) makes the interpreter halt with an unknown-opcode
error at the current pc, leaving the state unchanged. -/
theorem c2_dispatch (a b c d e : Nat) (ha : a < 64) (hb : b < 128)
    (hc : c < 128) (hd : d < 64) (rest : List Nat) (pc : Nat) (s : VMState) :
    (∀ op, (opcodes op).isSome = true ↔ (op = 101 ∨ op = 73 ∨ op = 5)) ∧
    run (asm_rsh a b c d e ++ rest) pc s = (s, HaltStatus.errUnknown pc 75) := by
  constructor
  · intro op
    unfold opcodes
    split_ifs with h1 h2 h3 <;> simp_all
  · exact run_step_rsh a b c d e ha hb hc hd rest pc s

/-- C2 (witness): the amended statement at the spec's ShiftRight test
vector, followed by one extra byte. -/
theorem c2_dispatch_witness :
    (opcodes 73).isSome = true ∧
    run (asm_rsh 1 2 3 4 5 ++ [0]) 7 initState =
      (initState, HaltStatus.errUnknown 7 75) :=
  ⟨((c2_dispatch 1 2 3 4 5 (by decide) (by decide) (by decide) (by decide)
      [0] 7 initState).1 73).mpr (Or.inr (Or.inl rfl)),
    (c2_dispatch 1 2 3 4 5 (by decide) (by decide) (by decide) (by decide)
      [0] 7 initState).2⟩

/-- C3 (counterexample): the program consisting of the single instruction
`Read(offset=5, src_reg=0, dst_reg=1)` writes nothing, yet the dump over
the range 0..10 contains address 5 (with the inserted default 0), because
a `defaultdict` read inserts its key. -/
theorem c3_dump_claim_cex : runInterpreter (asm_read 5 0 1) 0 10 = [(5, 0)] := by
  decide

/-- C3 (amended): the dump restricted to [start, stop] contains exactly the
in-range addresses present in `data_memory` at the end of the run, and an
address becomes present when it is first written or first read: a `Read`
inserts the address it reads (with default 0) just as a `Write` inserts the
address it stores to, so a read-only address does appear in the dump. -/
theorem c3_dump :
    (∀ (m : Mem) (start stop a v : Nat),
      ((a, v) ∈ memoryDump m start stop) ↔
        (start ≤ a ∧ a ≤ stop ∧ memContains m a = true ∧ v = memGet m a)) ∧
    (∀ (off asrc adst : Nat) (st : VMState),
      memContains (execD (Decoded.read off asrc adst) st).mem
        (st.registers.getD asrc 0 + off) = true) ∧
    (∀ (adst asrc : Nat) (st : VMState),
      memContains (execD (Decoded.write adst asrc) st).mem
        (st.registers.getD adst 0) = true) := by
  refine ⟨mem_memoryDump, ?_, ?_⟩
  · intro off asrc adst st
    simp [execD, exec_read, memContains_memTouch]
  · intro adst asrc st
    simp [execD, exec_write, memContains_memWrite]

/-- C3 (witness): the dump-membership characterization at a concrete
memory and range, and the two insertion facts at concrete states. -/
theorem c3_dump_witness :
    (((3, 9) ∈ memoryDump [(3, 9)] 0 5) ↔
      (0 ≤ 3 ∧ 3 ≤ 5 ∧ memContains [(3, 9)] 3 = true ∧ 9 = memGet [(3, 9)] 3)) ∧
    memContains (execD (Decoded.read 5 0 1) initState).mem 5 = true :=
  ⟨c3_dump.1 [(3, 9)] 0 5 3 9, c3_dump.2.1 5 0 1 initState⟩

/-- C4 (counterexample): decoding the encoding of `Write(src_reg=1,
dst_reg=2)` does not give back the same instruction (the two register
fields come back with their roles exchanged). -/
theorem c4_roundtrip_cex :
    decode (encodeInstr (Instr.write 1 2)) ≠ some (Instr.write 1 2) := by
  decide

/-- C4 (amended): `decode(encode(i)) = i` holds for in-range `LoadConst`
and `Read`; for `Write(src, dst)` decoding returns `Write(dst, src)` (the
interpreter's decoder labels the bit-7 field the destination and the
bit-13 field the source, the opposite of the encoder); `ShiftRight` cannot
be decoded at all, opcode 75 being absent from the dispatch table. -/
theorem c4_roundtrip :
    (∀ c d : Nat, c < 262144 → d < 64 →
      decode (encodeInstr (Instr.ldc c d)) = some (Instr.ldc c d)) ∧
    (∀ o sr dr : Nat, o < 128 → sr < 64 → dr < 64 →
      decode (encodeInstr (Instr.read o sr dr)) = some (Instr.read o sr dr)) ∧
    (∀ sr dr : Nat, sr < 64 → dr < 64 →
      decode (encodeInstr (Instr.write sr dr)) = some (Instr.write dr sr)) ∧
    (∀ a b c d e : Nat, a < 64 → b < 128 → c < 128 → d < 64 →
      decode (encodeInstr (Instr.rsh a b c d e)) = none) := by
  refine ⟨?_, ?_, ?_, ?_⟩
  · intro c d hc hd
    unfold decode
    simp only [encodeInstr]
    rw [decodeInstrBytes_eq (asm_ldc c d) 4 decode_ldc
      (by rw [asm_ldc_opcode c d hc]; rfl) (asm_ldc_ne_nil c d)]
    rw [take_all_of_length _ _ (by simp [asm_ldc, toBytesLE_length])]
    rw [decode_ldc_correct c d hc hd]
    rfl
  · intro o sr dr ho hs hd
    unfold decode
    simp only [encodeInstr]
    rw [decodeInstrBytes_eq (asm_read o sr dr) 4 decode_read
      (by rw [asm_read_opcode o sr dr ho hs]; rfl) (asm_read_ne_nil o sr dr)]
    rw [take_all_of_length _ _ (by simp [asm_read, toBytesLE_length])]
    rw [decode_read_correct o sr dr ho hs hd]
    rfl
  · intro sr dr hs hd
    unfold decode
    simp only [encodeInstr]
    rw [decodeInstrBytes_eq (asm_write sr dr) 3 decode_write
      (by rw [asm_write_opcode sr dr hs]; rfl) (asm_write_ne_nil sr dr)]
    rw [take_all_of_length _ _ (by simp [asm_write, toBytesLE_length])]
    rw [decode_write_correct sr dr hs hd]
    rfl
  · intro a b c d e ha hb hc hd
    unfold decode
    simp only [encodeInstr]
    rw [decodeInstrBytes_none (asm_rsh a b c d e)
      (by rw [asm_rsh_opcode a b c d e ha hb hc hd]; rfl)
      (asm_rsh_ne_nil a b c d e)]
    rfl

/-- C4 (witness): the amended round-trip behaviour at the spec's four fixed
test vectors. -/
theorem c4_roundtrip_witness :
    decode (encodeInstr (Instr.ldc 29 12)) = some (Instr.ldc 29 12) ∧
    decode (encodeInstr (Instr.read 46 50 50)) = some (Instr.read 46 50 50) ∧
    decode (encodeInstr (Instr.write 38 47)) = some (Instr.write 47 38) ∧
    decode (encodeInstr (Instr.rsh 6 36 35 19 11)) = none :=
  ⟨c4_roundtrip.1 29 12 (by decide) (by decide),
    c4_roundtrip.2.1 46 50 50 (by decide) (by decide) (by decide),
    c4_roundtrip.2.2.1 38 47 (by decide) (by decide),
    c4_roundtrip.2.2.2 6 36 35 19 11 (by decide) (by decide) (by decide)
      (by decide)⟩

/-- C5 (counterexample): a program consisting of one unknown-opcode byte
makes the loop halt with an error, yet the caller-visible outcome of
`run_interpreter` (which returns no failure value — it only prints — and
still writes the dump) is identical to that of a normal empty run. -/
theorem c5_outcome_cex :
    (run [127] 0 initState).2 = HaltStatus.errUnknown 0 127 ∧
    runInterpreter [127] 0 3 = runInterpreter [] 0 3 := by
  decide

/-- C5 (amended): assembly-stage errors are a distinguishable failure
outcome carrying the bad operation tag (a `ValueError` aborting `asm`, so
no partial binary is returned); interpreter-stage errors are not — the
decode error is only printed, the loop breaks, and `run_interpreter`
completes normally, producing exactly the dump of the state reached by the
valid prefix, indistinguishable from a successful run of that prefix. -/
theorem c5_err_reporting :
    (∀ p : List SrcInstr, (∃ i ∈ p, encodeSrc i = none) →
      ∃ t, asm p = .error ("Unknown instruction: " ++ t) ∧
        ∃ i ∈ p, i.op = t ∧ encodeSrc i = none) ∧
    (∀ (instrs : List Instr) (suffix : List Nat) (start stop : Nat),
      (∀ i ∈ instrs, okInstr i = true) → badStart suffix = true →
      runInterpreter (encodeProgram instrs ++ suffix) start stop =
        runInterpreter (encodeProgram instrs) start stop) := by
  constructor
  · exact asm_err
  · intro instrs suffix start stop hok hbad
    unfold runInterpreter
    have h1 := run_encodeProgram instrs hok suffix 0 initState
    have h2 := run_encodeProgram instrs hok [] 0 initState
    rw [List.append_nil] at h2
    rw [h1, h2]
    rw [(run_badStart suffix (0 + (encodeProgram instrs).length)
      (execProgram instrs initState) hbad).1]
    rfl

/-- C5 (witness): the amended statement at a one-record program with the
unrecognized tag "foo", and at the valid program `[LoadConst(7, r0)]`
followed by the unknown-opcode byte 127. -/
theorem c5_err_reporting_witness :
    (∃ t, asm [⟨"foo", 0, 0, 0, 0, 0, 0, 0, 0⟩] =
        .error ("Unknown instruction: " ++ t) ∧
      ∃ i ∈ [(⟨"foo", 0, 0, 0, 0, 0, 0, 0, 0⟩ : SrcInstr)], i.op = t ∧
        encodeSrc i = none) ∧
    runInterpreter (encodeProgram [Instr.ldc 7 0] ++ [127]) 0 10 =
      runInterpreter (encodeProgram [Instr.ldc 7 0]) 0 10 :=
  ⟨c5_err_reporting.1 [⟨"foo", 0, 0, 0, 0, 0, 0, 0, 0⟩]
      ⟨⟨"foo", 0, 0, 0, 0, 0, 0, 0, 0⟩, by decide, by decide⟩,
    c5_err_reporting.2 [Instr.ldc 7 0] [127] 0 10 (by decide) (by decide)⟩

/-- C6: the encoder produces exactly the four byte sequences of the spec's
fixed test vectors (also checked by the assembler's own `--test` mode). -/
theorem c6_fixed_vectors :
    asm_ldc 29 12 = [0xE5, 0x0E, 0x00, 0x18] ∧
    asm_read 46 50 50 = [0x49, 0x97, 0x2C, 0x03] ∧
    asm_write 38 47 = [0x05, 0xF3, 0x05] ∧
    asm_rsh 6 36 35 19 11 = [0x4B, 0x83, 0x34, 0x9A, 0x16] := by
  decide

/-- C7: when the loop hits a bad instruction start (unknown opcode or
truncated window) after a prefix of valid instructions, it halts at the
current state with an error status at the pc just past the prefix: the
registers and memory are exactly those produced by the executed prefix, and
nothing further mutates them. -/
theorem c7_halt_error_preserves (instrs : List Instr) (suffix : List Nat)
    (hok : ∀ i ∈ instrs, okInstr i = true) (hbad : badStart suffix = true) :
    (run (encodeProgram instrs ++ suffix) 0 initState).1 =
      execProgram instrs initState ∧
    ((run (encodeProgram instrs ++ suffix) 0 initState).2 =
        HaltStatus.errUnknown (encodeProgram instrs).length
          ((suffix.headD 0) &&& 127) ∨
      (run (encodeProgram instrs ++ suffix) 0 initState).2 =
        HaltStatus.errTrunc (encodeProgram instrs).length) := by
  have h1 := run_encodeProgram instrs hok suffix 0 initState
  rw [Nat.zero_add] at h1
  rw [h1]
  exact run_badStart suffix (encodeProgram instrs).length
    (execProgram instrs initState) hbad

/-- C7 (witness): the program `[LoadConst(7, r0)]` followed by the
unknown-opcode byte 127 keeps the effect of the `LoadConst` and reports an
unknown-opcode error at pc 4. -/
theorem c7_halt_error_preserves_witness :
    (run (encodeProgram [Instr.ldc 7 0] ++ [127]) 0 initState).1 =
      execProgram [Instr.ldc 7 0] initState ∧
    ((run (encodeProgram [Instr.ldc 7 0] ++ [127]) 0 initState).2 =
        HaltStatus.errUnknown (encodeProgram [Instr.ldc 7 0]).length
          (([127].headD 0) &&& 127) ∨
      (run (encodeProgram [Instr.ldc 7 0] ++ [127]) 0 initState).2 =
        HaltStatus.errTrunc (encodeProgram [Instr.ldc 7 0]).length) :=
  c7_halt_error_preserves [Instr.ldc 7 0] [127] (by decide) (by decide)

/-- C8 (counterexample): the 5-byte encoding of
`ShiftRight(1, 2, 3, 4, 5)` — a validly encoded instruction with in-range
fields — does not reach Halted-Normal: the run halts immediately with an
unknown-opcode error at pc 0. -/
theorem c8_termination_cex :
    run (asm_rsh 1 2 3 4 5) 0 initState =
      (initState, HaltStatus.errUnknown 0 75) := by
  decide

/-- C8 (amended): for every program that is a concatenation of validly
encoded `LoadConst`/`Read`/`Write` instructions (the three variants whose
opcodes are in the dispatch table), the loop reaches Halted-Normal exactly
at pc equal to the byte length of the program, having executed each
instruction exactly once in encoding order; a validly encoded `ShiftRight`
instead halts the run with an unknown-opcode error. -/
theorem c8_termination (instrs : List Instr)
    (hok : ∀ i ∈ instrs, okInstr i = true) :
    run (encodeProgram instrs) 0 initState =
      (execProgram instrs initState,
        HaltStatus.normal (encodeProgram instrs).length) := by
  have h := run_encodeProgram instrs hok [] 0 initState
  rw [List.append_nil, Nat.zero_add] at h
  rw [h]
  rfl

/-- C8 (witness): the spec's three-instruction test program terminates
normally at pc 11 with the folded state. -/
theorem c8_termination_witness :
    run (encodeProgram [Instr.ldc 7 0, Instr.ldc 3 1, Instr.write 0 1]) 0
        initState =
      (execProgram [Instr.ldc 7 0, Instr.ldc 3 1, Instr.write 0 1] initState,
        HaltStatus.normal
          (encodeProgram [Instr.ldc 7 0, Instr.ldc 3 1,
            Instr.write 0 1]).length) :=
  c8_termination [Instr.ldc 7 0, Instr.ldc 3 1, Instr.write 0 1] (by decide)

/-- C9: assembling a program whose tags are all recognized yields exactly
the concatenation, in source order, of the individual encodings (no
padding, alignment, or length prefix — `concatSrc` is a plain append
fold); if any tag is unrecognized the whole assembly fails with an error
and no binary, partial or otherwise, is returned. -/
theorem c9_concat (p : List SrcInstr) :
    ((∀ i ∈ p, (encodeSrc i).isSome = true) → asm p = .ok (concatSrc p)) ∧
    ((∃ i ∈ p, encodeSrc i = none) → ∃ e, asm p = .error e) := by
  constructor
  · exact asm_ok p
  · intro h
    obtain ⟨t, ht, _⟩ := asm_err p h
    exact ⟨_, ht⟩

/-- C9 (witness): a two-instruction recognized program assembles to the
concatenation of its encodings; a program containing the tag "foo" fails. -/
theorem c9_concat_witness :
    asm [⟨"ldc", 29, 12, 0, 0, 0, 0, 0, 0⟩, ⟨"write", 0, 0, 0, 38, 47, 0, 0, 0⟩] =
      .ok (concatSrc [⟨"ldc", 29, 12, 0, 0, 0, 0, 0, 0⟩,
        ⟨"write", 0, 0, 0, 38, 47, 0, 0, 0⟩]) ∧
    (∃ e, asm [⟨"foo", 0, 0, 0, 0, 0, 0, 0, 0⟩] = .error e) :=
  ⟨(c9_concat _).1 (by decide),
    (c9_concat _).2 ⟨⟨"foo", 0, 0, 0, 0, 0, 0, 0, 0⟩, by decide, by decide⟩⟩

/-- C10: every register index any decoder produces is masked with 0x3F and
so lies below 64, keeping every register access of the executors inside the
64-element register file; and the register file's length is still 64 after
any run from the fresh state. -/
theorem c10_reg_bounds :
    (∀ bs c a, decode_ldc bs = Decoded.ldc c a → a < 64) ∧
    (∀ bs o asrc adst, decode_read bs = Decoded.read o asrc adst →
      asrc < 64 ∧ adst < 64) ∧
    (∀ bs adst asrc, decode_write bs = Decoded.write adst asrc →
      adst < 64 ∧ asrc < 64) ∧
    (∀ (bytes : List Nat) (pc : Nat),
      (((run bytes pc initState).1).registers).length = 64) := by
  have hmask : ∀ x : Nat, x &&& 63 < 64 := by
    intro x
    have h := Nat.and_lt_two_pow x (show (63 : Nat) < 2 ^ 6 by norm_num)
    norm_num at h
    exact h
  refine ⟨?_, ?_, ?_, ?_⟩
  · intro bs c a h
    unfold decode_ldc at h
    cases h
    exact hmask _
  · intro bs o asrc adst h
    unfold decode_read at h
    cases h
    exact ⟨hmask _, hmask _⟩
  · intro bs adst asrc h
    unfold decode_write at h
    cases h
    exact ⟨hmask _, hmask _⟩
  · intro bytes pc
    unfold run
    rw [runFuel_reg_length]
    simp [initState]

/-- C10 (witness): a decoded register index below 64 at a concrete byte
window, and the register-file length after a concrete run. -/
theorem c10_reg_bounds_witness :
    (12 : Nat) < 64 ∧
    (((run [127] 0 initState).1).registers).length = 64 :=
  ⟨c10_reg_bounds.1 (asm_ldc 29 12) 29 12 (by decide),
    c10_reg_bounds.2.2.2 [127] 0⟩
